import Mathlib

/-!
Verification development for the route-collection and convergence-analysis
core of chartroutes_srlinux.py.  The Python functions are shallowly embedded:
JSON values are an inductive type, Python exceptions are an Except monad,
dictionaries are insertion-ordered association lists, floats are rationals.
-/

namespace ChartRoutes

/-- JSON values as produced by json.loads on a gNMIc response.  Numbers are
modelled as integers (the route-count fields the script reads are integral
counts). -/
inductive Json where
  | null
  | bool (b : Bool)
  | num (n : Int)
  | str (s : String)
  | arr (xs : List Json)
  | obj (kvs : List (String × Json))

/-- Python truthiness of a JSON value, used by the `if data:` guard. -/
def pyTruthy : Json → Bool
  | .null => false
  | .bool b => b
  | .num n => n != 0
  | .str s => s != ""
  | .arr xs => !xs.isEmpty
  | .obj kvs => !kvs.isEmpty

/-- First-match lookup in a parsed JSON object (dicts produced by json.loads
have unique keys). -/
def jLookup : List (String × Json) → String → Option Json
  | [], _ => none
  | (k2, v) :: rest, k => if k2 = k then some v else jLookup rest k

/-- Python dict.get(k, d) on a parsed object. -/
def jLookupD (kvs : List (String × Json)) (k : String) (d : Json) : Json :=
  (jLookup kvs k).getD d

/-- Python `for x in v` iteration: lists yield their elements, dicts yield
their keys, strings yield their characters; any other value raises TypeError,
modelled as Except.error. -/
def pyIter : Json → Except Unit (List Json)
  | .arr xs => .ok xs
  | .obj kvs => .ok (kvs.map (fun kv => .str kv.1))
  | .str s => .ok (s.data.map (fun c => .str (String.mk [c])))
  | _ => .error ()

/-- Whether the first list is an initial segment of the second. -/
def startsWithList : List Char → List Char → Bool
  | [], _ => true
  | _ :: _, [] => false
  | a :: t1, b :: t2 => a == b && startsWithList t1 t2

/-- Whether the first list occurs contiguously inside the second. -/
def containsList (needle : List Char) : List Char → Bool
  | [] => startsWithList needle []
  | c :: rest => startsWithList needle (c :: rest) || containsList needle rest

/-- Python `k in v` for a string k: key test on dicts, elementwise equality on
lists (only a string element can equal k), substring test on strings;
TypeError otherwise. -/
def pyContains (k : String) : Json → Except Unit Bool
  | .obj kvs => .ok (kvs.any (fun kv => kv.1 == k))
  | .arr xs => .ok (xs.any (fun x => match x with | .str s => s == k | _ => false))
  | .str s => .ok (containsList k.data s.data)
  | _ => .error ()

/-- Python `v[k]` for a string key: only dicts support it; list and string
subscripts must be integers, so any other receiver raises TypeError. -/
def pySubscript (k : String) : Json → Except Unit Json
  | .obj kvs =>
      match jLookup kvs k with
      | some v => .ok v
      | none => .error ()
  | _ => .error ()

/-- Python `v.items()`: dicts only, AttributeError otherwise. -/
def pyItems : Json → Except Unit (List (String × Json))
  | .obj kvs => .ok kvs
  | _ => .error ()

/-- Python str.isdigit restricted to ASCII digit strings. -/
def pyIsdigit (s : String) : Bool := !s.isEmpty && s.data.all Char.isDigit

/-- Numeric value of an ASCII digit string. -/
def digitsToNat (s : List Char) : Nat := s.foldl (fun a c => 10 * a + (c.toNat - 48)) 0

/-- The conversion `int(x) if x.isdigit() else 0` that the script applies to
str instances; every non-string value passes through unchanged. -/
def coerceCount : Json → Json
  | .str s => .num (if pyIsdigit s then (digitsToNat s.data : Int) else 0)
  | v => v

/-- One family entry of the results dict: the pair stored under
`{'total': received, 'active': active}`. -/
structure FamStats where
  total : Json
  active : Json

def zeroStats : FamStats := ⟨.num 0, .num 0⟩

/-- The per-family results dictionary (insertion-ordered, keys unique by
construction). -/
abbrev FamRes := List (String × FamStats)

/-- Python dict assignment `d[k] = v`: overwrite in place or append. -/
def dinsert (k : String) (v : FamStats) : FamRes → FamRes
  | [] => [(k, v)]
  | (k2, v2) :: rest => if k2 = k then (k, v) :: rest else (k2, v2) :: dinsert k v rest

def rkeys (r : FamRes) : List String := r.map Prod.fst

/-- The family_map literal of get_protocol_stats_by_family. -/
def family_map : List (String × String) :=
  [("ipv4-unicast", "srl_nokia-common:ipv4-unicast"),
   ("ipv6-unicast", "srl_nokia-common:ipv6-unicast"),
   ("evpn", "srl_nokia-common:evpn")]

/-- family_map.get(requested_family, requested_family). -/
def familyMapGet (f : String) : String :=
  ((family_map.find? (fun kv => kv.1 == f)).map Prod.snd).getD f

/-- The inner `for requested_family in families:` loop over one AFI-SAFI
entry: for every requested family whose mapped SR Linux name equals the
afi-safi-name of this entry, assign the converted counts.  Python compares
afi_name == sr_linux_name, which is true only when afi_name is that string. -/
def matchFams (afiName received active : Json) : List String → FamRes → FamRes
  | [], res => res
  | f :: fs, res =>
      matchFams afiName received active fs
        (match afiName with
         | .str s =>
             if s = familyMapGet f then
               dinsert f ⟨coerceCount received, coerceCount active⟩ res
             else res
         | _ => res)

/-- The `for afi_safi in afi_safi_list:` loop: each entry must be a dict (the
.get calls raise AttributeError otherwise); its name and counts are read and
matched against the requested families. -/
def procAfiList (families : List String) : List Json → FamRes → Except Unit FamRes
  | [], res => .ok res
  | a :: rest, res =>
      match a with
      | .obj kvs =>
          procAfiList families rest
            (matchFams (jLookupD kvs "afi-safi-name" (.str ""))
              (jLookupD kvs "received-routes" (.num 0))
              (jLookupD kvs "active-routes" (.num 0)) families res)
      | _ => .error ()

/-- One `(key, value)` pair of values.items(): a list is the AFI-SAFI list
itself; a dict with key afi-safi has that member iterated with Python for
semantics; any other value leaves afi_safi_list empty. -/
def procValueEntry (families : List String) (v : Json) (res : FamRes) : Except Unit FamRes :=
  match v with
  | .arr xs => procAfiList families xs res
  | .obj kvs =>
      if kvs.any (fun kv => kv.1 == "afi-safi") then
        match pyIter (jLookupD kvs "afi-safi" .null) with
        | .ok items => procAfiList families items res
        | .error e => .error e
      else .ok res
  | _ => .ok res

/-- The `for key, value in values.items():` loop. -/
def procKVs (families : List String) : List (String × Json) → FamRes → Except Unit FamRes
  | [], res => .ok res
  | (_, v) :: rest, res =>
      match procValueEntry families v res with
      | .ok res2 => procKVs families rest res2
      | .error e => .error e

/-- One update of the `for update in item['updates']:` loop. -/
def procUpdate (families : List String) (u : Json) (res : FamRes) : Except Unit FamRes :=
  match pyContains "values" u with
  | .error e => .error e
  | .ok b =>
      if b then
        match pySubscript "values" u with
        | .error e => .error e
        | .ok v =>
            match pyItems v with
            | .error e => .error e
            | .ok kvs => procKVs families kvs res
      else .ok res

def procUpdates (families : List String) : List Json → FamRes → Except Unit FamRes
  | [], res => .ok res
  | u :: rest, res =>
      match procUpdate families u res with
      | .ok res2 => procUpdates families rest res2
      | .error e => .error e

/-- One item of the outer `for item in data:` loop. -/
def procItem (families : List String) (item : Json) (res : FamRes) : Except Unit FamRes :=
  match pyContains "updates" item with
  | .error e => .error e
  | .ok b =>
      if b then
        match pySubscript "updates" item with
        | .error e => .error e
        | .ok u =>
            match pyIter u with
            | .error e => .error e
            | .ok ups => procUpdates families ups res
      else .ok res

def procItems (families : List String) : List Json → FamRes → Except Unit FamRes
  | [], res => .ok res
  | item :: rest, res =>
      match procItem families item res with
      | .ok res2 => procItems families rest res2
      | .error e => .error e

/-- The body of the `try:` block of get_protocol_stats_by_family, up to but
not including the zero-fill loop. -/
def parseData (families : List String) (data : Json) : Except Unit FamRes :=
  match pyIter data with
  | .error e => .error e
  | .ok items => procItems families items []

/-- The zero-fill loop: `for family in families: if family not in results:
results[family] = zeros` (assignment of an absent key appends it). -/
def zeroFill : List String → FamRes → FamRes
  | [], res => res
  | f :: fs, res => zeroFill fs (if f ∈ rkeys res then res else res ++ [(f, zeroStats)])

def allZerosAux : List String → FamRes → FamRes
  | [], res => res
  | f :: fs, res => allZerosAux fs (dinsert f zeroStats res)

/-- The `for family in families: results[family] = zeros` loop run from an
empty dict.  It models the data-falsy branch, the non-BGP branch, and the
except branch; in the except branch Python overwrites a partially filled dict
family by family, which produces the same key set and the same all-zero
values, differing at most in key insertion order. -/
def allZeros (families : List String) : FamRes := allZerosAux families []

/-- Python str.lower restricted to ASCII, via the character list. -/
def pyLower (s : String) : String := String.mk (s.data.map Char.toLower)

/-- Python str.upper restricted to ASCII, via the character list. -/
def pyUpper (s : String) : String := String.mk (s.data.map Char.toUpper)

/-- get_protocol_stats_by_family.  The data argument is the return value of
execute_gnmic_command: none models the None returned on transport, timeout or
decode failure. -/
def get_protocol_stats_by_family (data : Option Json) (protocol : String)
    (families : List String) : FamRes :=
  if pyLower protocol = "bgp" then
    match data with
    | some d =>
        if pyTruthy d then
          match parseData families d with
          | .ok res => zeroFill families res
          | .error _ => allZeros families
        else allZeros families
    | none => allZeros families
  else allZeros families

/-!
Data collection: collect_route_data initialises routeStats as a
defaultdict(list) holding one `Elapsed Time` list plus, after the first
committed tick, one list per family value key.  The value keys end in
" Total Routes" or " Active Routes" and therefore never collide with
"Elapsed Time" (proved below), so the state is modelled as the elapsed list
plus the dictionary of value keys, and len(routeStats) is 1 + vals.length.
-/

/-- Per-device series state (routeStats of one device). -/
structure SeriesSet where
  elapsed : List Rat
  vals : List (String × List Json)

def initSeries : SeriesSet := ⟨[], []⟩

/-- len(rtrData[target]['routeStats']): the Elapsed Time key plus the value
keys. -/
def numKeys (st : SeriesSet) : Nat := 1 + st.vals.length

/-- defaultdict(list) append `d[k].append(v)`: extend the list of the first
occurrence of the key, or create the key with a one-element list. -/
def dappend (k : String) (v : Json) : List (String × List Json) → List (String × List Json)
  | [] => [(k, [v])]
  | (k2, l) :: rest => if k2 = k then (k2, l ++ [v]) :: rest else (k2, l) :: dappend k v rest

/-- The key string of the f-string for total routes of one family. -/
def totalKey (f protocol : String) : String :=
  f ++ " " ++ pyUpper protocol ++ " Total Routes"

/-- The key string of the f-string for active routes of one family. -/
def activeKey (f protocol : String) : String :=
  f ++ " " ++ pyUpper protocol ++ " Active Routes"

/-- The `for family, stats in family_stats.items():` loop of one committed
tick: append the total then the active count of every family. -/
def appendStats (protocol : String) : FamRes → List (String × List Json) → List (String × List Json)
  | [], vals => vals
  | (f, sts) :: rest, vals =>
      appendStats protocol rest
        (dappend (activeKey f protocol) sts.active
          (dappend (totalKey f protocol) sts.total vals))

/-- One iteration of the collection loop at absolute clock time clock with
fetch outcome fetch: compute the elapsed time, fetch the per-family stats,
and commit one sample when the stats dict is truthy. -/
def tickStep (protocol : String) (families : List String) (startTime : Rat)
    (clock : Rat) (fetch : Option Json) (st : SeriesSet) : SeriesSet :=
  let family_stats := get_protocol_stats_by_family fetch protocol families
  if family_stats.isEmpty then st
  else { elapsed := st.elapsed ++ [clock - startTime],
         vals := appendStats protocol family_stats st.vals }

/-- The whole run of the collect_route_data loop over the ticks that execute,
each tick given by its clock reading and its fetch outcome. -/
def collectRun (protocol : String) (families : List String) (startTime : Rat)
    (ticks : List (Rat × Option Json)) : SeriesSet :=
  ticks.foldl (fun st t => tickStep protocol families startTime t.1 t.2 st) initSeries

/-- The per-device validity test of main:
len(rtrData[target]['routeStats']) > 1. -/
def validDevice (st : SeriesSet) : Bool := decide (1 < numKeys st)

/-!
Convergence analysis: the scan of main over route_counts and time_values.
The series is the index-aligned sequence of (elapsed, count) pairs.
-/

/-- A for-loop with enumerate and break: index of the first element
satisfying the predicate. -/
def scanIdx (p : Int → Bool) : List Int → Nat → Option Nat
  | [], _ => none
  | c :: rest, i => if p c then some i else scanIdx p rest (i + 1)

/-- The start-index scan: first count strictly beyond the start threshold in
the derived direction, stepped back one index.  Nat subtraction truncates at
zero exactly like the max(0, i - 1) of the source. -/
def startIdxScan (counts : List Int) (sv ev : Int) : Option Nat :=
  if sv < ev then (scanIdx (fun c => decide (sv < c)) counts 0).map (fun i => i - 1)
  else (scanIdx (fun c => decide (c < sv)) counts 0).map (fun i => i - 1)

/-- The end-index scan: first count reaching or passing the end threshold in
the derived direction, with no step back. -/
def endIdxScan (counts : List Int) (sv ev : Int) : Option Nat :=
  if sv < ev then scanIdx (fun c => decide (ev ≤ c)) counts 0
  else scanIdx (fun c => decide (c ≤ ev)) counts 0

/-- A found crossing: the printed start time, end time, convergence time and
convergence rate. -/
structure Crossing where
  startTime : Rat
  endTime : Rat
  convTime : Rat
  rate : Rat
deriving DecidableEq

/-- Result of the convergence scan; the two notFound flags record which of
the two boundaries was missing, mirroring the two distinct ERROR lines. -/
inductive CrossResult where
  | found (c : Crossing)
  | notFound (startMissing endMissing : Bool)
deriving DecidableEq

def CrossResult.isNotFound : CrossResult → Bool
  | .notFound _ _ => true
  | _ => false

/-- The convergence scan of main for one family: both index scans, then the
time lookups and the guarded rate division.  The getD default is never used
because found indices are positions inside the series itself. -/
def findCrossing (series : List (Rat × Int)) (sv ev : Int) : CrossResult :=
  let counts := series.map Prod.snd
  let times := series.map Prod.fst
  match startIdxScan counts sv ev, endIdxScan counts sv ev with
  | some si, some ei =>
      let st := times.getD si 0
      let et := times.getD ei 0
      let conv := et - st
      let delta : Rat := ((ev - sv).natAbs : Rat)
      .found ⟨st, et, conv, if 0 < conv then delta / conv else 0⟩
  | s, e => .notFound s.isNone e.isNone

/-!
Configuration phase of main: when both threshold value lists are supplied
they are length-checked against the family list before any collection thread
is created; sys.exit(1) on mismatch is the error case.
-/

/-- Threshold validation of main lines 459 to 467. -/
def validateThresholds (sv ev : Option (List Int)) (families : List String) :
    Except Unit (Option (List Int × List Int)) :=
  match sv, ev with
  | some s, some e =>
      if s.length ≠ families.length ∨ e.length ≠ families.length then .error ()
      else .ok (some (s, e))
  | _, _ => .ok none

/-- main up to and including data collection: threshold validation runs
strictly before any poller thread starts, so a mismatch aborts with no
collection at all. -/
def mainCollect (sv ev : Option (List Int)) (protocol : String)
    (families : List String) (startTime : Rat)
    (ticksPerDevice : List (List (Rat × Option Json))) :
    Except Unit (Option (List Int × List Int) × List SeriesSet) :=
  match validateThresholds sv ev families with
  | .error e => .error e
  | .ok th =>
      .ok (th, ticksPerDevice.map (fun ts => collectRun protocol families startTime ts))

/-!
Derived notions used to state and prove the claims.
-/

/-- The example series of the spec: values [5, 5, 12, 20] at elapsed times
[0, 1, 2, 3]. -/
def convEx : List (Rat × Int) := [(0, 5), (1, 5), (2, 12), (3, 20)]

/-- Value sequence stored under one key of the routeStats dict (empty when
the key is absent). -/
def lookupSeq (k : String) : List (String × List Json) → List Json
  | [] => []
  | (k2, l) :: rest => if k2 = k then l else lookupSeq k rest

/-- Key list of the value dictionary. -/
def vkeys (vals : List (String × List Json)) : List String := vals.map Prod.fst

/-- The stats dict has keys inside the family list, without duplicates. -/
def KeysIn (res : FamRes) (fams : List String) : Prop :=
  (∀ x ∈ rkeys res, x ∈ fams) ∧ (rkeys res).Nodup

/-- The strings that can appear as value keys of a device: the total and
active key of each requested family. -/
def KeyFor (p : String) (fams : List String) (x : String) : Prop :=
  ∃ f ∈ fams, x = totalKey f p ∨ x = activeKey f p

/-- Invariant of a device state during collection: sequences are aligned
with the elapsed list, value keys are unique, and once a sample has
committed the key set is exactly the total and active keys of the families. -/
def GoodState (p : String) (fams : List String) (st : SeriesSet) : Prop :=
  (∀ kv ∈ st.vals, kv.2.length = st.elapsed.length)
  ∧ (vkeys st.vals).Nodup
  ∧ (st.elapsed = [] → st.vals = [])
  ∧ (st.elapsed ≠ [] → ∀ x, x ∈ vkeys st.vals ↔ KeyFor p fams x)

/-- A well-behaved route-count field of the response: absent, a string, or a
non-negative integer.  Anything else flows into the results dict unchanged. -/
def fieldOk : Option Json → Bool
  | none => true
  | some (.num n) => decide (0 ≤ n)
  | some (.str _) => true
  | some _ => false

mutual
/-- All route-count fields reachable anywhere inside the value are
well-behaved as in fieldOk. -/
def goodCounts : Json → Bool
  | .arr xs => goodCountsList xs
  | .obj kvs =>
      fieldOk (jLookup kvs "active-routes") && fieldOk (jLookup kvs "received-routes")
        && goodCountsKVs kvs
  | _ => true
def goodCountsList : List Json → Bool
  | [] => true
  | x :: xs => goodCounts x && goodCountsList xs
def goodCountsKVs : List (String × Json) → Bool
  | [] => true
  | (_, v) :: kvs => goodCounts v && goodCountsKVs kvs
end

/-- Every entry of the results dict carries non-negative integer total and
active counts. -/
def ResGood (res : FamRes) : Prop :=
  ∀ kv ∈ res, (∃ t : Int, kv.2.total = .num t ∧ 0 ≤ t)
    ∧ (∃ a : Int, kv.2.active = .num a ∧ 0 ≤ a)

/-- A well-formed response whose active-routes field is the negative integer
-5: the script stores it unchanged. -/
def cexData : Json :=
  .arr [.obj [("updates", .arr [.obj [("values", .obj [("x", .arr [.obj
    [("afi-safi-name", .str "srl_nokia-common:ipv4-unicast"),
     ("active-routes", .num (-5)),
     ("received-routes", .num 7)]])])]])]]

/-- A well-formed response with a non-negative active count and a
digit-string received count. -/
def goodData : Json :=
  .arr [.obj [("updates", .arr [.obj [("values", .obj [("x", .arr [.obj
    [("afi-safi-name", .str "srl_nokia-common:ipv4-unicast"),
     ("active-routes", .num 5),
     ("received-routes", .str "7")]])])]])]]

/-!
Claims about the convergence scan and the configuration phase.
-/

lemma scanIdx_eq_findIdx (p : Int → Bool) (l : List Int) (n : Nat) :
    scanIdx p l n = l.findIdx? p n := by
  induction l generalizing n with
  | nil => simp [scanIdx]
  | cons c rest ih => by_cases h : p c <;> simp [scanIdx, h, ih]

/-- C1: for increasing thresholds the start index is the first index with
value strictly above the start threshold stepped back one and clamped at
zero, and the end index is the first index with value at or above the end
threshold with no step back; on the example series with thresholds 10 and 20
this yields start index 1, end index 3, interval 2 and rate 5. -/
theorem claim1_increasing_scan (series : List (Rat × Int)) (sv ev : Int) (h : sv < ev) :
    startIdxScan (series.map Prod.snd) sv ev
      = ((series.map Prod.snd).findIdx? (fun c => decide (sv < c))).map (fun i => max 0 (i - 1))
    ∧ endIdxScan (series.map Prod.snd) sv ev
      = (series.map Prod.snd).findIdx? (fun c => decide (ev ≤ c))
    ∧ startIdxScan (convEx.map Prod.snd) 10 20 = some 1
    ∧ endIdxScan (convEx.map Prod.snd) 10 20 = some 3
    ∧ findCrossing convEx 10 20 = .found ⟨1, 3, 2, 5⟩ := by
  refine ⟨?_, ?_, by decide, by decide, ?_⟩
  · rw [startIdxScan, if_pos h, scanIdx_eq_findIdx]
    congr 1
    funext i
    exact (Nat.zero_max (i - 1)).symm
  · rw [endIdxScan, if_pos h, scanIdx_eq_findIdx]
  · norm_num [findCrossing, startIdxScan, endIdxScan, scanIdx, convEx, List.getD]

theorem claim1_witness :
    startIdxScan (convEx.map Prod.snd) 10 20 = some 1
    ∧ endIdxScan (convEx.map Prod.snd) 10 20 = some 3 :=
  ⟨(claim1_increasing_scan convEx 10 20 (by decide)).2.2.1,
   (claim1_increasing_scan convEx 10 20 (by decide)).2.2.2.1⟩

/-- C3 counterexample: on the example series with start 20 and end 5 the
scan does not return NotFound at all, contrary to the claim. -/
theorem claim3_counterexample : (findCrossing convEx 20 5).isNotFound = false := rfl

/-- C3 amended: with start 20 and end 5 (decreasing direction) the first
value 5 is already below both thresholds, so both scans match at index 0 and
the result is a found crossing with zero interval and zero rate. -/
theorem claim3_decreasing_example : findCrossing convEx 20 5 = .found ⟨0, 0, 0, 0⟩ := by
  norm_num [findCrossing, startIdxScan, endIdxScan, scanIdx, convEx, List.getD]

/-- C5: every found crossing carries rate equal to the absolute threshold
difference divided by the elapsed interval when that interval is positive,
and rate exactly zero when the interval is zero; the division is guarded and
never performed with a zero divisor. -/
theorem claim5_rate_guard (series : List (Rat × Int)) (sv ev : Int) (c : Crossing)
    (h : findCrossing series sv ev = .found c) :
    (0 < c.convTime → c.rate = |(ev : Rat) - (sv : Rat)| / c.convTime)
    ∧ (c.convTime = 0 → c.rate = 0) := by
  simp only [findCrossing] at h
  rcases hs : startIdxScan (series.map Prod.snd) sv ev with _ | si <;>
    rcases he : endIdxScan (series.map Prod.snd) sv ev with _ | ei <;>
      rw [hs, he] at h <;> simp only [] at h
  · cases h
  · cases h
  · cases h
  · rw [CrossResult.found.injEq] at h
    subst h
    dsimp only
    constructor
    · intro hpos
      rw [if_pos hpos]
      congr 1
      rw [Int.cast_natAbs]
      push_cast
      ring_nf
    · intro h0
      rw [h0]
      norm_num

theorem claim5_witness :
    (0 < (Crossing.mk 0 0 0 0).convTime →
      (Crossing.mk 0 0 0 0).rate = |((5 : Int) : Rat) - ((20 : Int) : Rat)| / (Crossing.mk 0 0 0 0).convTime)
    ∧ ((Crossing.mk 0 0 0 0).convTime = 0 → (Crossing.mk 0 0 0 0).rate = 0) :=
  claim5_rate_guard [(0, 5)] 20 5 ⟨0, 0, 0, 0⟩
    (by simp [findCrossing, startIdxScan, endIdxScan, scanIdx, List.getD])

/-- C9: the convergence scan is deterministic and idempotent: two runs on
the same series and thresholds produce equal results. -/
theorem claim9_deterministic (series : List (Rat × Int)) (sv ev : Int)
    (r1 r2 : CrossResult) (h1 : findCrossing series sv ev = r1)
    (h2 : findCrossing series sv ev = r2) : r1 = r2 :=
  h1.symm.trans h2

theorem claim9_witness : CrossResult.notFound true true = .notFound true true :=
  claim9_deterministic [] 10 20 (.notFound true true) (.notFound true true) rfl rfl

/-- C7: when both threshold value lists are supplied and either list length
differs from the family list length, main aborts in the configuration phase
with no data collection at all. -/
theorem claim7_config_mismatch (s e : List Int) (protocol : String)
    (families : List String) (startTime : Rat)
    (ticks : List (List (Rat × Option Json)))
    (h : s.length ≠ families.length ∨ e.length ≠ families.length) :
    mainCollect (some s) (some e) protocol families startTime ticks = .error () := by
  rcases h with h | h <;> simp [mainCollect, validateThresholds, h]

theorem claim7_witness :
    mainCollect (some [1]) (some []) "bgp" ["a", "b"] 0 [] = .error () :=
  claim7_config_mismatch [1] [] "bgp" ["a", "b"] 0 [] (by decide)

/-!
Distinctness of the generated key strings.
-/

lemma append_tail_ne (x y : List Char)
    (h : x ++ " Total Routes".data = y ++ " Active Routes".data) : False := by
  have h1 := congrArg List.reverse h
  simp only [List.reverse_append] at h1
  have h2 := congrArg (List.take 8) h1
  rw [List.take_append_of_le_length (by decide),
    List.take_append_of_le_length (by decide)] at h2
  exact absurd h2 (by decide)

lemma totalKey_ne_activeKey (f g p : String) : totalKey f p ≠ activeKey g p := by
  intro h
  have hd := congrArg String.data h
  simp only [totalKey, activeKey, String.data_append] at hd
  exact append_tail_ne _ _ hd

lemma totalKey_inj {f g p : String} (h : totalKey f p = totalKey g p) : f = g := by
  have hd := congrArg String.data h
  simp only [totalKey, String.data_append] at hd
  exact String.ext (List.append_cancel_right (List.append_cancel_right
    (List.append_cancel_right hd)))

lemma activeKey_inj {f g p : String} (h : activeKey f p = activeKey g p) : f = g := by
  have hd := congrArg String.data h
  simp only [activeKey, String.data_append] at hd
  exact String.ext (List.append_cancel_right (List.append_cancel_right
    (List.append_cancel_right hd)))

/-!
Facts about the per-family results dictionary.
-/

lemma dinsert_mem_aux (k : String) (v : FamStats) :
    ∀ (r : FamRes) (kv : String × FamStats),
      kv ∈ dinsert k v r → kv = (k, v) ∨ kv ∈ r := by
  intro r
  induction r with
  | nil => intro kv h; simpa [dinsert] using h
  | cons hd tl ih =>
    intro kv h
    obtain ⟨k2, v2⟩ := hd
    rw [dinsert] at h
    by_cases hk : k2 = k
    · rw [if_pos hk, List.mem_cons] at h
      rcases h with h | h
      · exact .inl h
      · exact .inr (List.mem_cons_of_mem _ h)
    · rw [if_neg hk, List.mem_cons] at h
      rcases h with h | h
      · exact .inr (h ▸ List.mem_cons_self _ _)
      · rcases ih kv h with h | h
        · exact .inl h
        · exact .inr (List.mem_cons_of_mem _ h)

lemma dinsert_mem {k : String} {v : FamStats} {r : FamRes} {kv : String × FamStats}
    (h : kv ∈ dinsert k v r) : kv = (k, v) ∨ kv ∈ r :=
  dinsert_mem_aux k v r kv h

lemma rkeys_dinsert_mem (k : String) (v : FamStats) (r : FamRes) (x : String) :
    x ∈ rkeys (dinsert k v r) ↔ x ∈ rkeys r ∨ x = k := by
  induction r with
  | nil => simp [dinsert, rkeys]
  | cons hd tl ih =>
    obtain ⟨k2, v2⟩ := hd
    rw [dinsert]
    by_cases hk : k2 = k
    · subst hk
      rw [if_pos rfl]
      simp only [rkeys, List.map_cons, List.mem_cons]
      tauto
    · rw [if_neg hk]
      simp only [rkeys, List.map_cons, List.mem_cons] at ih ⊢
      tauto

lemma rkeys_dinsert_nodup (k : String) (v : FamStats) {r : FamRes}
    (h : (rkeys r).Nodup) : (rkeys (dinsert k v r)).Nodup := by
  induction r with
  | nil => simp [dinsert, rkeys]
  | cons hd tl ih =>
    obtain ⟨k2, v2⟩ := hd
    simp only [rkeys, List.map_cons, List.nodup_cons] at h
    rw [dinsert]
    by_cases hk : k2 = k
    · subst hk
      simpa [rkeys, List.nodup_cons] using h
    · rw [if_neg hk]
      simp only [rkeys, List.map_cons, List.nodup_cons]
      refine ⟨fun hmem => ?_, ih h.2⟩
      rcases (rkeys_dinsert_mem k v tl k2).mp hmem with hm | hm
      · exact h.1 hm
      · exact hk hm

lemma allZerosAux_mem (fams : List String) (res : FamRes) (x : String) :
    x ∈ rkeys (allZerosAux fams res) ↔ x ∈ rkeys res ∨ x ∈ fams := by
  induction fams generalizing res with
  | nil => simp [allZerosAux]
  | cons f fs ih =>
    rw [allZerosAux, ih, rkeys_dinsert_mem]
    simp only [List.mem_cons]
    tauto

lemma allZerosAux_nodup (fams : List String) {res : FamRes}
    (h : (rkeys res).Nodup) : (rkeys (allZerosAux fams res)).Nodup := by
  induction fams generalizing res with
  | nil => exact h
  | cons f fs ih => exact ih (rkeys_dinsert_nodup f zeroStats h)

lemma allZerosAux_vals {fams : List String} {res : FamRes} {kv : String × FamStats}
    (h : kv ∈ allZerosAux fams res) : kv.2 = zeroStats ∨ kv ∈ res := by
  induction fams generalizing res with
  | nil => exact .inr h
  | cons f fs ih =>
    rcases ih h with h2 | h2
    · exact .inl h2
    · rcases dinsert_mem h2 with h3 | h3
      · exact .inl (by rw [h3])
      · exact .inr h3

lemma allZeros_mem (fams : List String) (x : String) :
    x ∈ rkeys (allZeros fams) ↔ x ∈ fams := by
  rw [allZeros, allZerosAux_mem]
  simp [rkeys]

lemma allZeros_nodup (fams : List String) : (rkeys (allZeros fams)).Nodup :=
  allZerosAux_nodup fams (by simp [rkeys])

lemma allZeros_vals {fams : List String} {kv : String × FamStats}
    (h : kv ∈ allZeros fams) : kv.2 = zeroStats := by
  rcases allZerosAux_vals h with h2 | h2
  · exact h2
  · simp at h2

lemma zeroFill_mem (fams : List String) (res : FamRes) (x : String) :
    x ∈ rkeys (zeroFill fams res) ↔ x ∈ rkeys res ∨ x ∈ fams := by
  induction fams generalizing res with
  | nil => simp [zeroFill]
  | cons f fs ih =>
    rw [zeroFill, ih]
    by_cases hf : f ∈ rkeys res
    · rw [if_pos hf]
      simp only [List.mem_cons]
      constructor
      · tauto
      · rintro (h | rfl | h) <;> tauto
    · rw [if_neg hf]
      simp only [rkeys, List.map_append, List.mem_append, List.map_cons, List.map_nil,
        List.mem_singleton, List.mem_cons]
      constructor
      · rintro ((h | h) | h) <;> simp_all [rkeys]
      · rintro (h | h | h) <;> simp_all [rkeys]

lemma zeroFill_nodup (fams : List String) {res : FamRes}
    (h : (rkeys res).Nodup) : (rkeys (zeroFill fams res)).Nodup := by
  induction fams generalizing res with
  | nil => exact h
  | cons f fs ih =>
    rw [zeroFill]
    by_cases hf : f ∈ rkeys res
    · rw [if_pos hf]; exact ih h
    · rw [if_neg hf]
      refine ih ?_
      simp only [rkeys, List.map_append, List.map_cons, List.map_nil] at *
      simp [List.nodup_append, h, hf]

lemma zeroFill_vals {fams : List String} {res : FamRes} {kv : String × FamStats}
    (h : kv ∈ zeroFill fams res) : kv ∈ res ∨ kv.2 = zeroStats := by
  induction fams generalizing res with
  | nil => exact .inl h
  | cons f fs ih =>
    rw [zeroFill] at h
    by_cases hf : f ∈ rkeys res
    · rw [if_pos hf] at h; exact ih h
    · rw [if_neg hf] at h
      rcases ih h with h2 | h2
      · rcases List.mem_append.mp h2 with h3 | h3
        · exact .inl h3
        · simp only [List.mem_singleton] at h3
          exact .inr (by rw [h3])
      · exact .inr h2

/-!
Key discipline of the parsing pass: every key the parser inserts is one of
the requested families, and keys stay unique.
-/

lemma matchFams_cons (afiName received active : Json) (f : String)
    (fs : List String) (res : FamRes) :
    matchFams afiName received active (f :: fs) res
      = matchFams afiName received active fs
          (match afiName with
           | .str s =>
               if s = familyMapGet f then
                 dinsert f ⟨coerceCount received, coerceCount active⟩ res
               else res
           | _ => res) := rfl

lemma matchFams_keysIn {afiName received active : Json} {fams : List String} :
    ∀ {fs : List String} {res : FamRes}, (∀ x ∈ fs, x ∈ fams) → KeysIn res fams →
      KeysIn (matchFams afiName received active fs res) fams := by
  intro fs
  induction fs with
  | nil => intro res _ h; exact h
  | cons f fs ih =>
    intro res hfs h
    rw [matchFams_cons]
    refine ih (fun x hx => hfs x (List.mem_cons_of_mem _ hx)) ?_
    cases afiName with
    | str s =>
      dsimp only
      by_cases hs : s = familyMapGet f
      · rw [if_pos hs]
        refine ⟨fun x hx => ?_, rkeys_dinsert_nodup _ _ h.2⟩
        rcases (rkeys_dinsert_mem _ _ _ _).mp hx with h2 | h2
        · exact h.1 x h2
        · exact h2 ▸ hfs f (List.mem_cons_self _ _)
      · rw [if_neg hs]; exact h
    | null => exact h
    | bool b => exact h
    | num n => exact h
    | arr xs => exact h
    | obj kvs => exact h

lemma procAfiList_keysIn {fams : List String} :
    ∀ {l : List Json} {res res2 : FamRes}, procAfiList fams l res = .ok res2 →
      KeysIn res fams → KeysIn res2 fams := by
  intro l
  induction l with
  | nil =>
    intro res res2 h hk
    rw [procAfiList] at h
    cases h
    exact hk
  | cons a rest ih =>
    intro res res2 h hk
    cases a with
    | obj kvs => exact ih h (matchFams_keysIn (fun x hx => hx) hk)
    | null => exact Except.noConfusion h
    | bool b => exact Except.noConfusion h
    | num n => exact Except.noConfusion h
    | str s => exact Except.noConfusion h
    | arr xs => exact Except.noConfusion h

lemma procValueEntry_keysIn {fams : List String} {v : Json} {res res2 : FamRes}
    (h : procValueEntry fams v res = .ok res2) (hk : KeysIn res fams) :
    KeysIn res2 fams := by
  cases v with
  | arr xs => exact procAfiList_keysIn h hk
  | obj kvs =>
    rw [procValueEntry] at h
    split at h
    · split at h
      · exact procAfiList_keysIn h hk
      · simp at h
    · exact (Except.ok.inj h) ▸ hk
  | null => exact (Except.ok.inj h) ▸ hk
  | bool b => exact (Except.ok.inj h) ▸ hk
  | num n => exact (Except.ok.inj h) ▸ hk
  | str s => exact (Except.ok.inj h) ▸ hk

lemma procKVs_keysIn {fams : List String} :
    ∀ {l : List (String × Json)} {res res2 : FamRes}, procKVs fams l res = .ok res2 →
      KeysIn res fams → KeysIn res2 fams := by
  intro l
  induction l with
  | nil => intro res res2 h hk; rw [procKVs] at h; cases h; exact hk
  | cons kv rest ih =>
    intro res res2 h hk
    obtain ⟨k, v⟩ := kv
    rw [procKVs] at h
    split at h
    · next res3 heq => exact ih h (procValueEntry_keysIn heq hk)
    · simp at h

lemma procUpdate_keysIn {fams : List String} {u : Json} {res res2 : FamRes}
    (h : procUpdate fams u res = .ok res2) (hk : KeysIn res fams) :
    KeysIn res2 fams := by
  rw [procUpdate] at h
  split at h
  · simp at h
  · split at h
    · split at h
      · simp at h
      · split at h
        · simp at h
        · exact procKVs_keysIn h hk
    · cases h; exact hk

lemma procUpdates_keysIn {fams : List String} :
    ∀ {l : List Json} {res res2 : FamRes}, procUpdates fams l res = .ok res2 →
      KeysIn res fams → KeysIn res2 fams := by
  intro l
  induction l with
  | nil => intro res res2 h hk; rw [procUpdates] at h; cases h; exact hk
  | cons u rest ih =>
    intro res res2 h hk
    rw [procUpdates] at h
    split at h
    · next res3 heq => exact ih h (procUpdate_keysIn heq hk)
    · simp at h

lemma procItem_keysIn {fams : List String} {item : Json} {res res2 : FamRes}
    (h : procItem fams item res = .ok res2) (hk : KeysIn res fams) :
    KeysIn res2 fams := by
  rw [procItem] at h
  split at h
  · simp at h
  · split at h
    · split at h
      · simp at h
      · split at h
        · simp at h
        · exact procUpdates_keysIn h hk
    · cases h; exact hk

lemma procItems_keysIn {fams : List String} :
    ∀ {l : List Json} {res res2 : FamRes}, procItems fams l res = .ok res2 →
      KeysIn res fams → KeysIn res2 fams := by
  intro l
  induction l with
  | nil => intro res res2 h hk; rw [procItems] at h; cases h; exact hk
  | cons item rest ih =>
    intro res res2 h hk
    rw [procItems] at h
    split at h
    · next res3 heq => exact ih h (procItem_keysIn heq hk)
    · simp at h

lemma parseData_keysIn {fams : List String} {d : Json} {res : FamRes}
    (h : parseData fams d = .ok res) : KeysIn res fams := by
  rw [parseData] at h
  split at h
  · simp at h
  · exact procItems_keysIn h ⟨by simp [rkeys], by simp [rkeys]⟩

/-!
Key facts about get_protocol_stats_by_family: its key set is exactly the
requested family list, with unique keys, in every branch.
-/

lemma get_stats_keys (data : Option Json) (p : String) (fams : List String) :
    (rkeys (get_protocol_stats_by_family data p fams)).Nodup
    ∧ ∀ x, x ∈ rkeys (get_protocol_stats_by_family data p fams) ↔ x ∈ fams := by
  have hz : (rkeys (allZeros fams)).Nodup ∧ ∀ x, x ∈ rkeys (allZeros fams) ↔ x ∈ fams :=
    ⟨allZeros_nodup fams, fun x => allZeros_mem fams x⟩
  simp only [get_protocol_stats_by_family.eq_def]
  split
  · split
    · split
      · split
        · next res hp =>
            have hk := parseData_keysIn hp
            refine ⟨zeroFill_nodup fams hk.2, fun x => ?_⟩
            rw [zeroFill_mem]
            constructor
            · rintro (h | h)
              · exact hk.1 x h
              · exact h
            · exact fun h => .inr h
        · exact hz
      · exact hz
    · exact hz
  · exact hz

lemma get_stats_none (p : String) (fams : List String) :
    get_protocol_stats_by_family none p fams = allZeros fams := by
  simp only [get_protocol_stats_by_family.eq_def]
  split <;> rfl

lemma get_stats_ne_empty {data : Option Json} {p : String} {fams : List String}
    (h : fams ≠ []) : (get_protocol_stats_by_family data p fams).isEmpty = false := by
  obtain ⟨f, hf⟩ := List.exists_mem_of_ne_nil fams h
  have hk : f ∈ rkeys (get_protocol_stats_by_family data p fams) :=
    ((get_stats_keys data p fams).2 f).mpr hf
  rcases hg : get_protocol_stats_by_family data p fams with _ | ⟨kv, rest⟩
  · rw [hg] at hk; simp [rkeys] at hk
  · rfl

/-!
Facts about the defaultdict append and the per-tick append loop.
-/

lemma lookupSeq_dappend_self (k : String) (v : Json) :
    ∀ d : List (String × List Json),
      lookupSeq k (dappend k v d) = lookupSeq k d ++ [v] := by
  intro d
  induction d with
  | nil => simp [dappend, lookupSeq]
  | cons hd tl ih =>
    obtain ⟨k2, l⟩ := hd
    rw [dappend]
    by_cases hk : k2 = k
    · rw [if_pos hk, lookupSeq, if_pos hk, lookupSeq, if_pos hk]
    · rw [if_neg hk, lookupSeq, if_neg hk, lookupSeq, if_neg hk, ih]

lemma lookupSeq_dappend_other {k k2 : String} (hne : k2 ≠ k) (v : Json) :
    ∀ d : List (String × List Json),
      lookupSeq k2 (dappend k v d) = lookupSeq k2 d := by
  intro d
  induction d with
  | nil =>
    simp only [dappend, lookupSeq]
    rw [if_neg (fun h => hne h.symm)]
  | cons hd tl ih =>
    obtain ⟨k3, l⟩ := hd
    rw [dappend]
    by_cases hk : k3 = k
    · subst hk
      rw [if_pos rfl, lookupSeq, lookupSeq]
      have : ¬ k3 = k2 := fun h => hne h.symm
      rw [if_neg this, if_neg this]
    · rw [if_neg hk, lookupSeq, lookupSeq, ih]

lemma vkeys_dappend_mem (k : String) (v : Json) (x : String) :
    ∀ d : List (String × List Json),
      (x ∈ vkeys (dappend k v d) ↔ x ∈ vkeys d ∨ x = k) := by
  intro d
  induction d with
  | nil => simp [dappend, vkeys, eq_comm]
  | cons hd tl ih =>
    obtain ⟨k2, l⟩ := hd
    rw [dappend]
    by_cases hk : k2 = k
    · subst hk
      rw [if_pos rfl]
      simp only [vkeys, List.map_cons, List.mem_cons]
      tauto
    · rw [if_neg hk]
      simp only [vkeys, List.map_cons, List.mem_cons] at ih ⊢
      tauto

lemma vkeys_dappend_nodup (k : String) (v : Json) :
    ∀ {d : List (String × List Json)}, (vkeys d).Nodup →
      (vkeys (dappend k v d)).Nodup := by
  intro d
  induction d with
  | nil => simp [dappend, vkeys]
  | cons hd tl ih =>
    intro h
    obtain ⟨k2, l⟩ := hd
    simp only [vkeys, List.map_cons, List.nodup_cons] at h
    rw [dappend]
    by_cases hk : k2 = k
    · subst hk
      simpa [vkeys, List.nodup_cons] using h
    · rw [if_neg hk]
      simp only [vkeys, List.map_cons, List.nodup_cons]
      refine ⟨fun hmem => ?_, ih h.2⟩
      rcases (vkeys_dappend_mem k v k2 tl).mp hmem with hm | hm
      · exact h.1 hm
      · exact hk hm

lemma dappend_ne_nil (k : String) (v : Json) (d : List (String × List Json)) :
    dappend k v d ≠ [] := by
  cases d with
  | nil => simp [dappend]
  | cons hd tl =>
    obtain ⟨k2, l⟩ := hd
    rw [dappend]
    by_cases hk : k2 = k
    · rw [if_pos hk]; simp
    · rw [if_neg hk]; simp

lemma lookupSeq_of_mem_nodup :
    ∀ {d : List (String × List Json)}, (vkeys d).Nodup →
      ∀ {kv : String × List Json}, kv ∈ d → kv.2 = lookupSeq kv.1 d := by
  intro d
  induction d with
  | nil => intro _ kv h; simp at h
  | cons hd tl ih =>
    intro hnd kv hm
    obtain ⟨k2, l⟩ := hd
    simp only [vkeys, List.map_cons, List.nodup_cons] at hnd
    rcases List.mem_cons.mp hm with hm | hm
    · subst hm
      rw [lookupSeq, if_pos rfl]
    · rw [lookupSeq]
      by_cases hk : k2 = kv.1
      · exfalso
        apply hnd.1
        rw [hk]
        exact List.mem_map_of_mem Prod.fst hm
      · rw [if_neg hk]
        exact ih hnd.2 hm

lemma mem_of_key_lookupSeq :
    ∀ {d : List (String × List Json)} {k : String}, k ∈ vkeys d →
      (k, lookupSeq k d) ∈ d := by
  intro d
  induction d with
  | nil => intro k h; simp [vkeys] at h
  | cons hd tl ih =>
    intro k h
    obtain ⟨k2, l⟩ := hd
    rw [lookupSeq]
    by_cases hk : k2 = k
    · subst hk
      rw [if_pos rfl]
      exact List.mem_cons_self _ _
    · rw [if_neg hk]
      simp only [vkeys, List.map_cons, List.mem_cons] at h
      rcases h with h | h
      · exact absurd h.symm hk
      · exact List.mem_cons_of_mem _ (ih h)

lemma appendStats_lookup_other {p : String} :
    ∀ {stats : FamRes} {vals : List (String × List Json)} {k : String},
      (∀ g ∈ rkeys stats, k ≠ totalKey g p ∧ k ≠ activeKey g p) →
      lookupSeq k (appendStats p stats vals) = lookupSeq k vals := by
  intro stats
  induction stats with
  | nil => intro vals k _; rw [appendStats]
  | cons hd tl ih =>
    intro vals k h
    obtain ⟨f, s⟩ := hd
    have hf := h f (by simp [rkeys])
    rw [appendStats, ih (fun g hg => h g (by simp [rkeys]; exact .inr (by simpa [rkeys] using hg))),
      lookupSeq_dappend_other hf.2, lookupSeq_dappend_other hf.1]

lemma appendStats_lookup_total {p : String} :
    ∀ {stats : FamRes} {vals : List (String × List Json)} {f : String} {s : FamStats},
      (rkeys stats).Nodup → (f, s) ∈ stats →
      lookupSeq (totalKey f p) (appendStats p stats vals)
        = lookupSeq (totalKey f p) vals ++ [s.total] := by
  intro stats
  induction stats with
  | nil => intro vals f s _ hm; simp at hm
  | cons hd tl ih =>
    intro vals f s hnd hm
    obtain ⟨g, t⟩ := hd
    simp only [rkeys, List.map_cons, List.nodup_cons] at hnd
    rcases List.mem_cons.mp hm with hm | hm
    · injection hm with hm1 hm2
      subst hm1
      subst hm2
      rw [appendStats,
        appendStats_lookup_other (fun g2 hg2 =>
          ⟨fun hc => hnd.1 (by rw [totalKey_inj hc]; simpa [rkeys] using hg2),
           totalKey_ne_activeKey f g2 p⟩),
        lookupSeq_dappend_other (totalKey_ne_activeKey f f p),
        lookupSeq_dappend_self]
    · have hfmem : f ∈ List.map Prod.fst tl := by
        simpa using List.mem_map_of_mem Prod.fst hm
      have hfg : f ≠ g := fun hfg => hnd.1 (hfg ▸ hfmem)
      rw [appendStats, ih hnd.2 hm,
        lookupSeq_dappend_other (totalKey_ne_activeKey f g p),
        lookupSeq_dappend_other (fun hc => hfg (totalKey_inj hc))]

lemma appendStats_lookup_active {p : String} :
    ∀ {stats : FamRes} {vals : List (String × List Json)} {f : String} {s : FamStats},
      (rkeys stats).Nodup → (f, s) ∈ stats →
      lookupSeq (activeKey f p) (appendStats p stats vals)
        = lookupSeq (activeKey f p) vals ++ [s.active] := by
  intro stats
  induction stats with
  | nil => intro vals f s _ hm; simp at hm
  | cons hd tl ih =>
    intro vals f s hnd hm
    obtain ⟨g, t⟩ := hd
    simp only [rkeys, List.map_cons, List.nodup_cons] at hnd
    rcases List.mem_cons.mp hm with hm | hm
    · injection hm with hm1 hm2
      subst hm1
      subst hm2
      rw [appendStats,
        appendStats_lookup_other (fun g2 hg2 =>
          ⟨fun hc => totalKey_ne_activeKey g2 f p hc.symm,
           fun hc => hnd.1 (by rw [activeKey_inj hc]; simpa [rkeys] using hg2)⟩),
        lookupSeq_dappend_self,
        lookupSeq_dappend_other (fun hc => totalKey_ne_activeKey f f p hc.symm)]
    · have hfmem : f ∈ List.map Prod.fst tl := by
        simpa using List.mem_map_of_mem Prod.fst hm
      have hfg : f ≠ g := fun hfg => hnd.1 (hfg ▸ hfmem)
      rw [appendStats, ih hnd.2 hm,
        lookupSeq_dappend_other (fun hc => hfg (activeKey_inj hc)),
        lookupSeq_dappend_other (fun hc => totalKey_ne_activeKey g f p hc.symm)]

lemma vkeys_appendStats_mem (p : String) :
    ∀ (stats : FamRes) (vals : List (String × List Json)) (x : String),
      (x ∈ vkeys (appendStats p stats vals) ↔
        x ∈ vkeys vals ∨ ∃ g ∈ rkeys stats, x = totalKey g p ∨ x = activeKey g p) := by
  intro stats
  induction stats with
  | nil => intro vals x; rw [appendStats]; simp [rkeys]
  | cons hd tl ih =>
    intro vals x
    obtain ⟨f, s⟩ := hd
    rw [appendStats, ih, vkeys_dappend_mem, vkeys_dappend_mem]
    simp only [rkeys, List.map_cons, List.mem_cons]
    constructor
    · rintro (((h | h) | h) | ⟨g, hg, h⟩)
      · exact .inl h
      · exact .inr ⟨f, .inl rfl, .inl h⟩
      · exact .inr ⟨f, .inl rfl, .inr h⟩
      · exact .inr ⟨g, .inr hg, h⟩
    · rintro (h | ⟨g, hg | hg, h⟩)
      · exact .inl (.inl (.inl h))
      · subst hg
        rcases h with h | h
        · exact .inl (.inl (.inr h))
        · exact .inl (.inr h)
      · exact .inr ⟨g, hg, h⟩

lemma vkeys_appendStats_nodup (p : String) :
    ∀ (stats : FamRes) {vals : List (String × List Json)},
      (vkeys vals).Nodup → (vkeys (appendStats p stats vals)).Nodup := by
  intro stats
  induction stats with
  | nil => intro vals h; rw [appendStats]; exact h
  | cons hd tl ih =>
    intro vals h
    obtain ⟨f, s⟩ := hd
    rw [appendStats]
    exact ih (vkeys_dappend_nodup _ _ (vkeys_dappend_nodup _ _ h))

lemma appendStats_ne_nil_of_ne_nil {p : String} :
    ∀ {stats : FamRes} {vals : List (String × List Json)},
      vals ≠ [] → appendStats p stats vals ≠ [] := by
  intro stats
  induction stats with
  | nil => intro vals h; rw [appendStats]; exact h
  | cons hd tl ih =>
    intro vals _
    obtain ⟨f, s⟩ := hd
    rw [appendStats]
    exact ih (dappend_ne_nil _ _ _)

lemma appendStats_ne_nil {p : String} {stats : FamRes}
    (h : stats ≠ []) (vals : List (String × List Json)) :
    appendStats p stats vals ≠ [] := by
  cases stats with
  | nil => exact absurd rfl h
  | cons hd tl =>
    obtain ⟨f, s⟩ := hd
    rw [appendStats]
    exact appendStats_ne_nil_of_ne_nil (dappend_ne_nil _ _ _)

/-!
Behaviour of one collection tick and of whole runs.
-/

lemma tickStep_skip {p : String} {fams : List String} {t0 c : Rat} {r : Option Json}
    {st : SeriesSet} (h : (get_protocol_stats_by_family r p fams).isEmpty = true) :
    tickStep p fams t0 c r st = st := by
  simp [tickStep, h]

lemma tickStep_commit {p : String} {fams : List String} {t0 c : Rat} {r : Option Json}
    {st : SeriesSet} (h : (get_protocol_stats_by_family r p fams).isEmpty = false) :
    tickStep p fams t0 c r st
      = ⟨st.elapsed ++ [c - t0],
         appendStats p (get_protocol_stats_by_family r p fams) st.vals⟩ := by
  simp [tickStep, h]

lemma goodState_init (p : String) (fams : List String) : GoodState p fams initSeries :=
  ⟨fun kv h => by simp [initSeries] at h, by simp [initSeries, vkeys],
   fun _ => rfl, fun h => absurd rfl h⟩

lemma tickStep_good {p : String} {fams : List String} {t0 c : Rat} {r : Option Json}
    {st : SeriesSet} (h : GoodState p fams st) :
    GoodState p fams (tickStep p fams t0 c r st) := by
  rcases hE : (get_protocol_stats_by_family r p fams).isEmpty with _ | _
  · -- a committed tick
    rw [tickStep_commit hE]
    obtain ⟨hnds, hiffs⟩ := get_stats_keys r p fams
    obtain ⟨hal, hnd, hemp, hkeys⟩ := h
    have hkeys2 : ∀ x, x ∈ vkeys (appendStats p (get_protocol_stats_by_family r p fams) st.vals)
        ↔ KeyFor p fams x := by
      intro x
      rw [vkeys_appendStats_mem]
      constructor
      · rintro (hx | ⟨g, hg, hx⟩)
        · by_cases hel : st.elapsed = []
          · rw [hemp hel] at hx
            simp [vkeys] at hx
          · exact (hkeys hel x).mp hx
        · exact ⟨g, (hiffs g).mp hg, hx⟩
      · rintro ⟨g, hg, hx⟩
        exact .inr ⟨g, (hiffs g).mpr hg, hx⟩
    refine ⟨?_, vkeys_appendStats_nodup p _ hnd, by simp, fun _ => hkeys2⟩
    intro kv hkv
    dsimp only at hkv ⊢
    have hk1 : kv.1 ∈ vkeys (appendStats p (get_protocol_stats_by_family r p fams) st.vals) :=
      List.mem_map_of_mem Prod.fst hkv
    obtain ⟨f, hf, hx⟩ := (hkeys2 kv.1).mp hk1
    have hfs : f ∈ rkeys (get_protocol_stats_by_family r p fams) := (hiffs f).mpr hf
    obtain ⟨⟨f2, s⟩, hsmem, hfeq⟩ := List.mem_map.mp hfs
    dsimp only at hfeq
    subst hfeq
    have hlook := lookupSeq_of_mem_nodup (vkeys_appendStats_nodup p _ hnd) hkv
    have hold : ∀ k, KeyFor p fams k → (lookupSeq k st.vals).length = st.elapsed.length := by
      intro k hKF
      by_cases hel : st.elapsed = []
      · rw [hemp hel, hel]
        rfl
      · have hkmem : k ∈ vkeys st.vals := (hkeys hel k).mpr hKF
        have h3 := hal (k, lookupSeq k st.vals) (mem_of_key_lookupSeq hkmem)
        simpa using h3
    rcases hx with hx | hx
    · rw [hlook, hx, appendStats_lookup_total hnds hsmem]
      simp [List.length_append, hold (totalKey f2 p) ⟨f2, hf, .inl rfl⟩]
    · rw [hlook, hx, appendStats_lookup_active hnds hsmem]
      simp [List.length_append, hold (activeKey f2 p) ⟨f2, hf, .inr rfl⟩]
  · rw [tickStep_skip hE]
    exact h

lemma collectRun_good (p : String) (fams : List String) (t0 : Rat)
    (ticks : List (Rat × Option Json)) : GoodState p fams (collectRun p fams t0 ticks) := by
  rw [collectRun]
  have main : ∀ st, GoodState p fams st →
      GoodState p fams (ticks.foldl (fun s t => tickStep p fams t0 t.1 t.2 s) st) := by
    induction ticks with
    | nil => intro st h; exact h
    | cons t ts ih =>
      intro st h
      rw [List.foldl_cons]
      exact ih _ (tickStep_good h)
  exact main initSeries (goodState_init p fams)

lemma collectRun_append_single (p : String) (fams : List String) (t0 : Rat)
    (ticks : List (Rat × Option Json)) (c : Rat) (r : Option Json) :
    collectRun p fams t0 (ticks ++ [(c, r)])
      = tickStep p fams t0 c r (collectRun p fams t0 ticks) := by
  rw [collectRun, collectRun, List.foldl_append, List.foldl_cons, List.foldl_nil]

lemma collectRun_elapsed_len {p : String} {fams : List String} {t0 : Rat}
    (h : fams ≠ []) (ticks : List (Rat × Option Json)) :
    (collectRun p fams t0 ticks).elapsed.length = ticks.length := by
  rw [collectRun]
  have main : ∀ st, ((ticks.foldl (fun s t => tickStep p fams t0 t.1 t.2 s) st).elapsed.length
      = st.elapsed.length + ticks.length) := by
    induction ticks with
    | nil => intro st; simp
    | cons t ts ih =>
      intro st
      rw [List.foldl_cons, ih, tickStep_commit (@get_stats_ne_empty t.2 p fams h)]
      simp only [List.length_append, List.length_cons, List.length_nil]
      omega
  simpa [initSeries] using main initSeries

/-- C2 counterexample: a single tick whose fetch fails (the fetch result is
None) still commits one sample: the elapsed list gains one entry and both
value keys of the family gain one zero entry, contrary to the claim that a
failed tick appends nothing. -/
theorem claim2_counterexample :
    (collectRun "bgp" ["ipv4-unicast"] 0 [(1, none)]).elapsed.length = 1
    ∧ lookupSeq (totalKey "ipv4-unicast" "bgp")
        (collectRun "bgp" ["ipv4-unicast"] 0 [(1, none)]).vals = [Json.num 0]
    ∧ lookupSeq (activeKey "ipv4-unicast" "bgp")
        (collectRun "bgp" ["ipv4-unicast"] 0 [(1, none)]).vals = [Json.num 0] :=
  ⟨rfl, rfl, rfl⟩

/-- C2 amended: on a tick whose metric fetch fails, with a non-empty family
list, the poller does not skip: it appends the elapsed time and appends a
zero to the total and active sequence of every requested family, because
get_protocol_stats_by_family returns a zero-filled truthy dict on failure.
Only with an empty family list does a tick no-op. -/
theorem claim2_failed_tick_commits (p : String) (fams : List String) (t0 c : Rat)
    (st : SeriesSet) (f : String) (hf : f ∈ fams) :
    (tickStep p fams t0 c none st).elapsed = st.elapsed ++ [c - t0]
    ∧ lookupSeq (totalKey f p) (tickStep p fams t0 c none st).vals
        = lookupSeq (totalKey f p) st.vals ++ [Json.num 0]
    ∧ lookupSeq (activeKey f p) (tickStep p fams t0 c none st).vals
        = lookupSeq (activeKey f p) st.vals ++ [Json.num 0] := by
  have hfam : fams ≠ [] := fun hnil => by simp [hnil] at hf
  have hE := @get_stats_ne_empty none p fams hfam
  obtain ⟨hnd, hiff⟩ := get_stats_keys none p fams
  have hfk : f ∈ rkeys (get_protocol_stats_by_family none p fams) := (hiff f).mpr hf
  obtain ⟨kv, hkv, hkve⟩ := List.mem_map.mp hfk
  have hz : kv.2 = zeroStats := by
    rw [get_stats_none] at hkv
    exact allZeros_vals hkv
  have hkv2 : (f, zeroStats) ∈ get_protocol_stats_by_family none p fams := by
    have hkveq : kv = (f, zeroStats) := Prod.ext hkve hz
    exact hkveq ▸ hkv
  rw [tickStep_commit hE]
  refine ⟨rfl, ?_, ?_⟩
  · rw [appendStats_lookup_total hnd hkv2]
    rfl
  · rw [appendStats_lookup_active hnd hkv2]
    rfl

theorem claim2_witness :
    (tickStep "bgp" ["ipv4-unicast"] 0 1 none initSeries).elapsed
        = initSeries.elapsed ++ [1 - 0]
    ∧ lookupSeq (totalKey "ipv4-unicast" "bgp")
        (tickStep "bgp" ["ipv4-unicast"] 0 1 none initSeries).vals
        = lookupSeq (totalKey "ipv4-unicast" "bgp") initSeries.vals ++ [Json.num 0]
    ∧ lookupSeq (activeKey "ipv4-unicast" "bgp")
        (tickStep "bgp" ["ipv4-unicast"] 0 1 none initSeries).vals
        = lookupSeq (activeKey "ipv4-unicast" "bgp") initSeries.vals ++ [Json.num 0] :=
  claim2_failed_tick_commits "bgp" ["ipv4-unicast"] 0 1 initSeries "ipv4-unicast" (by decide)

/-- C4 counterexample: a device whose fetch fails on both of its two ticks
still ends with two recorded samples and passes the validity test of main,
so it is not excluded from the convergence scans, contrary to the claim. -/
theorem claim4_counterexample :
    validDevice (collectRun "bgp" ["ipv4-unicast"] 0 [(0, none), (1, none)]) = true
    ∧ (collectRun "bgp" ["ipv4-unicast"] 0 [(0, none), (1, none)]).elapsed.length = 2 :=
  ⟨rfl, rfl⟩

/-- C4 amended: with a non-empty family list, a device whose fetch fails on
every tick still records one zero-valued sample per tick, passes the
len(routeStats) > 1 validity test, and is therefore included in the
convergence scans; a device is excluded only when no tick ever committed.
The convergence scan on an empty series does return NotFound for both
boundaries instead of raising. -/
theorem claim4_all_fail_included (p : String) (fams : List String) (t0 : Rat)
    (ticks : List (Rat × Option Json)) (hfam : fams ≠ []) (ht : ticks ≠ [])
    (hfail : ∀ t ∈ ticks, t.2 = none) :
    validDevice (collectRun p fams t0 ticks) = true
    ∧ (collectRun p fams t0 ticks).elapsed.length = ticks.length
    ∧ ∀ sv ev : Int, findCrossing [] sv ev = .notFound true true := by
  refine ⟨?_, collectRun_elapsed_len hfam ticks, ?_⟩
  · rcases List.eq_nil_or_concat ticks with hnil | ⟨L, b, hLb⟩
    · exact absurd hnil ht
    · subst hLb
      obtain ⟨c, r⟩ := b
      rw [List.concat_eq_append, collectRun_append_single,
        tickStep_commit (@get_stats_ne_empty r p fams hfam)]
      have hsne : get_protocol_stats_by_family r p fams ≠ [] := by
        intro hnil
        have h1 := @get_stats_ne_empty r p fams hfam
        rw [hnil] at h1
        simp at h1
      have hvne := @appendStats_ne_nil p (get_protocol_stats_by_family r p fams) hsne
        (collectRun p fams t0 L).vals
      have hlen : 0 < (appendStats p (get_protocol_stats_by_family r p fams)
          (collectRun p fams t0 L).vals).length := List.length_pos.mpr hvne
      simp only [validDevice, numKeys, decide_eq_true_eq]
      omega
  · intro sv ev
    by_cases h : sv < ev <;>
      simp [findCrossing, startIdxScan, endIdxScan, scanIdx, h]

theorem claim4_witness :
    validDevice (collectRun "bgp" ["ipv4-unicast"] 0 [(1, none)]) = true
    ∧ (collectRun "bgp" ["ipv4-unicast"] 0 [(1, none)]).elapsed.length = 1
    ∧ ∀ sv ev : Int, findCrossing [] sv ev = .notFound true true :=
  claim4_all_fail_included "bgp" ["ipv4-unicast"] 0 [(1, none)] (by simp) (by simp)
    (by simp)

/-- C6: for every run, at every observation point, every value sequence has
exactly the length of the elapsed-time sequence, and appending one
successful poll tick (a tick whose fetch returned data) grows the elapsed
sequence and every value sequence by exactly one entry. -/
theorem claim6_alignment (p : String) (fams : List String) (t0 : Rat)
    (ticks : List (Rat × Option Json)) :
    (∀ kv ∈ (collectRun p fams t0 ticks).vals,
        kv.2.length = (collectRun p fams t0 ticks).elapsed.length)
    ∧ (∀ (c : Rat) (d : Json), fams ≠ [] →
        (collectRun p fams t0 (ticks ++ [(c, some d)])).elapsed.length
            = (collectRun p fams t0 ticks).elapsed.length + 1
        ∧ ∀ kv ∈ (collectRun p fams t0 (ticks ++ [(c, some d)])).vals,
            kv.2.length = (collectRun p fams t0 ticks).elapsed.length + 1) := by
  refine ⟨(collectRun_good p fams t0 ticks).1, ?_⟩
  intro c d hfam
  have hE := @get_stats_ne_empty (some d) p fams hfam
  constructor
  · rw [collectRun_append_single, tickStep_commit hE]
    simp
  · intro kv hkv
    rw [collectRun_append_single] at hkv
    have h1 := (tickStep_good (collectRun_good p fams t0 ticks)).1 kv hkv
    rw [tickStep_commit hE] at h1
    simpa using h1

theorem claim6_witness :
    (collectRun "bgp" ["ipv4-unicast"] 0 ([] ++ [((1 : Rat), some Json.null)])).elapsed.length
        = (collectRun "bgp" ["ipv4-unicast"] 0 []).elapsed.length + 1
    ∧ ∀ kv ∈ (collectRun "bgp" ["ipv4-unicast"] 0 ([] ++ [((1 : Rat), some Json.null)])).vals,
        kv.2.length = (collectRun "bgp" ["ipv4-unicast"] 0 []).elapsed.length + 1 :=
  (claim6_alignment "bgp" ["ipv4-unicast"] 0 []).2 1 Json.null (by simp)

lemma tickStep_elapsed_cases (p : String) (fams : List String) (t0 c : Rat)
    (r : Option Json) (st : SeriesSet) :
    (tickStep p fams t0 c r st).elapsed = st.elapsed
    ∨ (tickStep p fams t0 c r st).elapsed = st.elapsed ++ [c - t0] := by
  rcases hE : (get_protocol_stats_by_family r p fams).isEmpty with _ | _
  · exact .inr (by rw [tickStep_commit hE])
  · exact .inl (by rw [tickStep_skip hE])

lemma collect_elapsed_extend (p : String) (fams : List String) (t0 : Rat) :
    ∀ (ticks : List (Rat × Option Json)) (st : SeriesSet),
      ∃ rest, (ticks.foldl (fun s t => tickStep p fams t0 t.1 t.2 s) st).elapsed
          = st.elapsed ++ rest
        ∧ List.Sublist rest (ticks.map (fun t => t.1 - t0)) := by
  intro ticks
  induction ticks with
  | nil => intro st; exact ⟨[], by simp, by simp⟩
  | cons t ts ih =>
    intro st
    obtain ⟨rest, h1, h2⟩ := ih (tickStep p fams t0 t.1 t.2 st)
    rcases tickStep_elapsed_cases p fams t0 t.1 t.2 st with hc | hc
    · refine ⟨rest, ?_, ?_⟩
      · rw [List.foldl_cons, h1, hc]
      · simpa using h2.cons _
    · refine ⟨(t.1 - t0) :: rest, ?_, ?_⟩
      · rw [List.foldl_cons, h1, hc]
        simp
      · simpa using List.Sublist.cons₂ (t.1 - t0) h2

/-- C8: when the clock readings of the executed ticks strictly increase, the
recorded elapsed-time sequence of the device is strictly increasing. -/
theorem claim8_elapsed_mono (p : String) (fams : List String) (t0 : Rat)
    (ticks : List (Rat × Option Json))
    (h : (ticks.map Prod.fst).Chain' (· < ·)) :
    (collectRun p fams t0 ticks).elapsed.Chain' (· < ·) := by
  obtain ⟨rest, h1, h2⟩ := collect_elapsed_extend p fams t0 ticks initSeries
  have he : (collectRun p fams t0 ticks).elapsed = rest := by
    rw [collectRun, h1]
    simp [initSeries]
  rw [he]
  have hm : (ticks.map (fun t => t.1 - t0)).Chain' (· < ·) := by
    rw [List.chain'_map]
    rw [List.chain'_map] at h
    exact h.imp (fun a b hab => sub_lt_sub_right hab t0)
  exact hm.sublist h2

theorem claim8_witness :
    (collectRun "bgp" ["ipv4-unicast"] 0 [((1 : Rat), none)]).elapsed.Chain' (· < ·) :=
  claim8_elapsed_mono "bgp" ["ipv4-unicast"] 0 [(1, none)] (by simp)

/-!
Propagation of well-behaved route-count fields through the parsing pass.
-/

lemma goodCountsList_iff : ∀ {xs : List Json},
    goodCountsList xs = true ↔ ∀ x ∈ xs, goodCounts x = true := by
  intro xs
  induction xs with
  | nil => simp [goodCountsList]
  | cons x xs ih =>
    rw [goodCountsList]
    simp [Bool.and_eq_true, ih, List.forall_mem_cons]

lemma goodCountsKVs_iff : ∀ {kvs : List (String × Json)},
    goodCountsKVs kvs = true ↔ ∀ kv ∈ kvs, goodCounts kv.2 = true := by
  intro kvs
  induction kvs with
  | nil => simp [goodCountsKVs]
  | cons kv kvs ih =>
    obtain ⟨k, v⟩ := kv
    rw [goodCountsKVs]
    simp [Bool.and_eq_true, ih, List.forall_mem_cons]

lemma goodCounts_obj {kvs : List (String × Json)} (h : goodCounts (.obj kvs) = true) :
    fieldOk (jLookup kvs "active-routes") = true
    ∧ fieldOk (jLookup kvs "received-routes") = true
    ∧ ∀ kv ∈ kvs, goodCounts kv.2 = true := by
  rw [goodCounts] at h
  simp only [Bool.and_eq_true] at h
  exact ⟨h.1.1, h.1.2, goodCountsKVs_iff.mp h.2⟩

lemma goodCounts_arr {xs : List Json} (h : goodCounts (.arr xs) = true) :
    ∀ x ∈ xs, goodCounts x = true := by
  rw [goodCounts] at h
  exact goodCountsList_iff.mp h

lemma jLookup_mem : ∀ {kvs : List (String × Json)} {k : String} {v : Json},
    jLookup kvs k = some v → (k, v) ∈ kvs := by
  intro kvs
  induction kvs with
  | nil => intro k v h; rw [jLookup] at h; cases h
  | cons kv rest ih =>
    intro k v h
    obtain ⟨k2, v2⟩ := kv
    rw [jLookup] at h
    by_cases hk : k2 = k
    · subst hk
      rw [if_pos rfl] at h
      cases h
      exact List.mem_cons_self _ _
    · rw [if_neg hk] at h
      exact List.mem_cons_of_mem _ (ih h)

lemma jLookupD_good {kvs : List (String × Json)} {k : String} {d : Json}
    (hobj : goodCounts (.obj kvs) = true) (hd : goodCounts d = true) :
    goodCounts (jLookupD kvs k d) = true := by
  rw [jLookupD]
  rcases hj : jLookup kvs k with _ | v
  · simpa using hd
  · simp only [Option.getD_some]
    exact (goodCounts_obj hobj).2.2 _ (jLookup_mem hj)

lemma pyIter_good {j : Json} {xs : List Json} (h : pyIter j = .ok xs)
    (hg : goodCounts j = true) : ∀ x ∈ xs, goodCounts x = true := by
  cases j with
  | arr ys => cases h; exact goodCounts_arr hg
  | obj kvs =>
    cases h
    intro x hx
    obtain ⟨kv, hkv, rfl⟩ := List.mem_map.mp hx
    simp [goodCounts]
  | str s =>
    cases h
    intro x hx
    obtain ⟨c, hc, rfl⟩ := List.mem_map.mp hx
    simp [goodCounts]
  | null => exact Except.noConfusion h
  | bool b => exact Except.noConfusion h
  | num n => exact Except.noConfusion h

lemma pySubscript_good {k : String} {j v : Json} (h : pySubscript k j = .ok v)
    (hg : goodCounts j = true) : goodCounts v = true := by
  cases j with
  | obj kvs =>
    rw [pySubscript] at h
    split at h
    · next v2 hj =>
        cases h
        exact (goodCounts_obj hg).2.2 _ (jLookup_mem hj)
    · exact Except.noConfusion h
  | null => exact Except.noConfusion h
  | bool b => exact Except.noConfusion h
  | num n => exact Except.noConfusion h
  | str s => exact Except.noConfusion h
  | arr xs => exact Except.noConfusion h

lemma pyItems_good {j : Json} {kvs : List (String × Json)} (h : pyItems j = .ok kvs)
    (hg : goodCounts j = true) : ∀ kv ∈ kvs, goodCounts kv.2 = true := by
  cases j with
  | obj kvs2 => cases h; exact (goodCounts_obj hg).2.2
  | null => exact Except.noConfusion h
  | bool b => exact Except.noConfusion h
  | num n => exact Except.noConfusion h
  | str s => exact Except.noConfusion h
  | arr xs => exact Except.noConfusion h

lemma coerce_good_field {kvs : List (String × Json)} {key : String}
    (hfo : fieldOk (jLookup kvs key) = true) :
    ∃ n : Int, coerceCount (jLookupD kvs key (.num 0)) = .num n ∧ 0 ≤ n := by
  rw [jLookupD]
  rcases hj : jLookup kvs key with _ | v
  · exact ⟨0, rfl, le_refl 0⟩
  · rw [hj] at hfo
    simp only [Option.getD_some]
    cases v with
    | num n =>
      refine ⟨n, rfl, ?_⟩
      simpa [fieldOk] using hfo
    | str s =>
      by_cases hd : pyIsdigit s
      · exact ⟨(digitsToNat s.data : Int), by simp [coerceCount, hd], by positivity⟩
      · exact ⟨0, by simp [coerceCount, hd], le_refl 0⟩
    | null => simp [fieldOk] at hfo
    | bool b => simp [fieldOk] at hfo
    | arr xs => simp [fieldOk] at hfo
    | obj kvs2 => simp [fieldOk] at hfo

lemma ResGood_nil : ResGood [] := fun kv h => by simp at h

lemma ResGood_dinsert {res : FamRes} {k : String} {v : FamStats} (hres : ResGood res)
    (hv : (∃ t : Int, v.total = .num t ∧ 0 ≤ t) ∧ (∃ a : Int, v.active = .num a ∧ 0 ≤ a)) :
    ResGood (dinsert k v res) := by
  intro kv hkv
  rcases dinsert_mem hkv with h | h
  · rw [h]; exact hv
  · exact hres kv h

lemma matchFams_good {afiName received active : Json}
    (hrec : ∃ n : Int, coerceCount received = .num n ∧ 0 ≤ n)
    (hact : ∃ n : Int, coerceCount active = .num n ∧ 0 ≤ n) :
    ∀ {fs : List String} {res : FamRes}, ResGood res →
      ResGood (matchFams afiName received active fs res) := by
  intro fs
  induction fs with
  | nil => intro res h; exact h
  | cons f fs ih =>
    intro res h
    rw [matchFams_cons]
    refine ih ?_
    cases afiName with
    | str s =>
      dsimp only
      by_cases hs : s = familyMapGet f
      · rw [if_pos hs]
        exact ResGood_dinsert h ⟨hrec, hact⟩
      · rw [if_neg hs]; exact h
    | null => exact h
    | bool b => exact h
    | num n => exact h
    | arr xs => exact h
    | obj kvs => exact h

lemma procAfiList_good {fams : List String} :
    ∀ {l : List Json} {res res2 : FamRes}, procAfiList fams l res = .ok res2 →
      (∀ x ∈ l, goodCounts x = true) → ResGood res → ResGood res2 := by
  intro l
  induction l with
  | nil => intro res res2 h _ hres; rw [procAfiList] at h; cases h; exact hres
  | cons a rest ih =>
    intro res res2 h hg hres
    cases a with
    | obj kvs =>
      have h1 := goodCounts_obj (hg _ (List.mem_cons_self _ _))
      exact ih h (fun x hx => hg x (List.mem_cons_of_mem _ hx))
        (matchFams_good (coerce_good_field h1.2.1) (coerce_good_field h1.1) hres)
    | null => exact Except.noConfusion h
    | bool b => exact Except.noConfusion h
    | num n => exact Except.noConfusion h
    | str s => exact Except.noConfusion h
    | arr xs => exact Except.noConfusion h

lemma procValueEntry_good {fams : List String} {v : Json} {res res2 : FamRes}
    (h : procValueEntry fams v res = .ok res2) (hg : goodCounts v = true)
    (hres : ResGood res) : ResGood res2 := by
  cases v with
  | arr xs => exact procAfiList_good h (goodCounts_arr hg) hres
  | obj kvs =>
    rw [procValueEntry] at h
    split at h
    · split at h
      · next items hit =>
          exact procAfiList_good h
            (pyIter_good hit (jLookupD_good hg (by simp [goodCounts]))) hres
      · simp at h
    · exact (Except.ok.inj h) ▸ hres
  | null => exact (Except.ok.inj h) ▸ hres
  | bool b => exact (Except.ok.inj h) ▸ hres
  | num n => exact (Except.ok.inj h) ▸ hres
  | str s => exact (Except.ok.inj h) ▸ hres

lemma procKVs_good {fams : List String} :
    ∀ {l : List (String × Json)} {res res2 : FamRes}, procKVs fams l res = .ok res2 →
      (∀ kv ∈ l, goodCounts kv.2 = true) → ResGood res → ResGood res2 := by
  intro l
  induction l with
  | nil => intro res res2 h _ hres; rw [procKVs] at h; cases h; exact hres
  | cons kv rest ih =>
    intro res res2 h hg hres
    obtain ⟨k, v⟩ := kv
    rw [procKVs] at h
    split at h
    · next res3 heq =>
        exact ih h (fun kv2 hkv2 => hg kv2 (List.mem_cons_of_mem _ hkv2))
          (procValueEntry_good heq (hg _ (List.mem_cons_self _ _)) hres)
    · simp at h

lemma procUpdate_good {fams : List String} {u : Json} {res res2 : FamRes}
    (h : procUpdate fams u res = .ok res2) (hg : goodCounts u = true)
    (hres : ResGood res) : ResGood res2 := by
  rw [procUpdate] at h
  split at h
  · simp at h
  · split at h
    · split at h
      · simp at h
      · next v hsub =>
          split at h
          · simp at h
          · next kvs hit =>
              exact procKVs_good h (pyItems_good hit (pySubscript_good hsub hg)) hres
    · exact (Except.ok.inj h) ▸ hres

lemma procUpdates_good {fams : List String} :
    ∀ {l : List Json} {res res2 : FamRes}, procUpdates fams l res = .ok res2 →
      (∀ u ∈ l, goodCounts u = true) → ResGood res → ResGood res2 := by
  intro l
  induction l with
  | nil => intro res res2 h _ hres; rw [procUpdates] at h; cases h; exact hres
  | cons u rest ih =>
    intro res res2 h hg hres
    rw [procUpdates] at h
    split at h
    · next res3 heq =>
        exact ih h (fun u2 hu2 => hg u2 (List.mem_cons_of_mem _ hu2))
          (procUpdate_good heq (hg _ (List.mem_cons_self _ _)) hres)
    · simp at h

lemma procItem_good {fams : List String} {item : Json} {res res2 : FamRes}
    (h : procItem fams item res = .ok res2) (hg : goodCounts item = true)
    (hres : ResGood res) : ResGood res2 := by
  rw [procItem] at h
  split at h
  · simp at h
  · split at h
    · split at h
      · simp at h
      · next u hsub =>
          split at h
          · simp at h
          · next ups hit =>
              exact procUpdates_good h (pyIter_good hit (pySubscript_good hsub hg)) hres
    · exact (Except.ok.inj h) ▸ hres

lemma procItems_good {fams : List String} :
    ∀ {l : List Json} {res res2 : FamRes}, procItems fams l res = .ok res2 →
      (∀ item ∈ l, goodCounts item = true) → ResGood res → ResGood res2 := by
  intro l
  induction l with
  | nil => intro res res2 h _ hres; rw [procItems] at h; cases h; exact hres
  | cons item rest ih =>
    intro res res2 h hg hres
    rw [procItems] at h
    split at h
    · next res3 heq =>
        exact ih h (fun i2 hi2 => hg i2 (List.mem_cons_of_mem _ hi2))
          (procItem_good heq (hg _ (List.mem_cons_self _ _)) hres)
    · simp at h

lemma parseData_good {fams : List String} {d : Json} {res : FamRes}
    (h : parseData fams d = .ok res) (hg : goodCounts d = true) : ResGood res := by
  rw [parseData] at h
  split at h
  · simp at h
  · next items hit =>
      exact procItems_good h (pyIter_good hit hg) ResGood_nil

lemma zeroFill_good {fams : List String} {res : FamRes} (h : ResGood res) :
    ResGood (zeroFill fams res) := by
  intro kv hkv
  rcases zeroFill_vals hkv with h2 | h2
  · exact h kv h2
  · rw [h2]
    exact ⟨⟨0, rfl, le_refl 0⟩, ⟨0, rfl, le_refl 0⟩⟩

lemma allZeros_good (fams : List String) : ResGood (allZeros fams) := by
  intro kv hkv
  rw [allZeros_vals hkv]
  exact ⟨⟨0, rfl, le_refl 0⟩, ⟨0, rfl, le_refl 0⟩⟩

/-- C10 counterexample: a structurally well-formed response carrying the
integer -5 as active-routes flows through unchanged, so the result maps the
family to a negative active count, contrary to the claimed non-negativity. -/
theorem claim10_counterexample :
    get_protocol_stats_by_family (some cexData) "bgp" ["ipv4-unicast"]
      = [("ipv4-unicast", ⟨Json.num 7, Json.num (-5)⟩)]
    ∧ ¬ ResGood (get_protocol_stats_by_family (some cexData) "bgp" ["ipv4-unicast"]) := by
  have he : get_protocol_stats_by_family (some cexData) "bgp" ["ipv4-unicast"]
      = [("ipv4-unicast", ⟨Json.num 7, Json.num (-5)⟩)] := rfl
  refine ⟨he, fun hres => ?_⟩
  have h2 := hres ("ipv4-unicast", ⟨Json.num 7, Json.num (-5)⟩)
    (by rw [he]; exact List.mem_singleton_self _)
  rcases h2 with ⟨-, a, ha, ha0⟩
  injection ha with ha2
  rw [← ha2] at ha0
  exact absurd ha0 (by decide)

/-- C10 amended: for every fetch outcome the function returns a dict whose
key set is exactly the requested family list, never None and never raising
(totality of the embedding); on a failed fetch every entry is the zero pair;
and the entries are non-negative integers provided every route-count field
of the response is absent, a string, or a non-negative integer — a negative
integer field is stored unchanged. -/
theorem claim10_stats_shape (data : Option Json) (p : String) (fams : List String) :
    ((∀ f ∈ fams, f ∈ rkeys (get_protocol_stats_by_family data p fams))
      ∧ (∀ k ∈ rkeys (get_protocol_stats_by_family data p fams), k ∈ fams))
    ∧ (∀ kv ∈ get_protocol_stats_by_family none p fams, kv.2 = zeroStats)
    ∧ ((∀ d, data = some d → goodCounts d = true) →
        ResGood (get_protocol_stats_by_family data p fams)) := by
  obtain ⟨hnd, hiff⟩ := get_stats_keys data p fams
  refine ⟨⟨fun f hf => (hiff f).mpr hf, fun k hk => (hiff k).mp hk⟩, ?_, ?_⟩
  · intro kv hkv
    rw [get_stats_none] at hkv
    exact allZeros_vals hkv
  · intro hgood
    simp only [get_protocol_stats_by_family.eq_def]
    split
    · split
      · split
        · split
          · next res hp => exact zeroFill_good (parseData_good hp (hgood _ rfl))
          · exact allZeros_good fams
        · exact allZeros_good fams
      · exact allZeros_good fams
    · exact allZeros_good fams

theorem claim10_witness :
    ResGood (get_protocol_stats_by_family (some goodData) "bgp" ["ipv4-unicast"]) :=
  (claim10_stats_shape (some goodData) "bgp" ["ipv4-unicast"]).2.2
    (by
      intro d hd
      cases hd
      simp [goodCounts, goodCountsList, goodCountsKVs, fieldOk, jLookup, goodData])

end ChartRoutes
